import Mathlib

/-!
Shallow embedding of `collectd.py` (appliedsec/collectd), a client library that
encodes named counters into the collectd binary network protocol and ships them
over UDP.

Modelling conventions:
- Python byte strings are modelled as `List Nat` (one `Nat` per byte).
- `struct.pack` fields are modelled byte-for-byte; 16-bit big-endian fields take
  the value modulo 2^16 (Python raises `struct.error` out of range; all inputs
  relevant here are in range), 64-bit signed integers are taken modulo 2^64.
- A stat value flowing through the codec is represented by the 64-bit IEEE-754
  bit pattern of the Python double (a `Nat` below 2^64): `struct.pack("<Bd", ...)`
  emits the kind byte followed by those 8 bytes little-endian, and no property
  proved here depends on which bit pattern a given real number has.
- Python dicts are modelled as insertion-ordered association lists; dict update
  keeps the position of an existing key and appends a fresh key.
- Numeric stat values in `Counter` are modelled as `Rat` (exact arithmetic; the
  spec speaks of exact sums).
-/

namespace Collectd

/-! ## Constants (collectd.py lines 17-42) -/

def SEND_INTERVAL : Int := 10
def MAX_PACKET_SIZE : Nat := 1024
def PLUGIN_TYPE : String := "gauge"

def TYPE_HOST : Nat := 0x0000
def TYPE_TIME : Nat := 0x0001
def TYPE_PLUGIN : Nat := 0x0002
def TYPE_PLUGIN_INSTANCE : Nat := 0x0003
def TYPE_TYPE : Nat := 0x0004
def TYPE_TYPE_INSTANCE : Nat := 0x0005
def TYPE_VALUES : Nat := 0x0006
def TYPE_INTERVAL : Nat := 0x0007

def VALUE_GAUGE : Nat := 1

/-! ## Byte-level encoding primitives -/

/-- One byte per entry; each entry is < 256 for byte strings produced by the codec. -/
abbrev Bytes := List Nat

/-- Big-endian 16-bit unsigned field, as produced by `struct.pack("!H", n)`. -/
def be2 (n : Nat) : Bytes := [n / 256 % 256, n % 256]

/-- Big-endian 64-bit signed field, as produced by `struct.pack("!q", n)`
(two's complement, modelled as the value modulo 2^64). -/
def be8 (n : Int) : Bytes :=
  let m := (n % (2 ^ 64 : Int)).toNat
  [m / 256 ^ 7 % 256, m / 256 ^ 6 % 256, m / 256 ^ 5 % 256, m / 256 ^ 4 % 256,
   m / 256 ^ 3 % 256, m / 256 ^ 2 % 256, m / 256 % 256, m % 256]

/-- Little-endian 8-byte field holding the IEEE-754 bit pattern of a double,
as produced by the `d` in `struct.pack("<Bd", ...)`. -/
def le8 (bits : Nat) : Bytes :=
  [bits % 256, bits / 256 % 256, bits / 256 ^ 2 % 256, bits / 256 ^ 3 % 256,
   bits / 256 ^ 4 % 256, bits / 256 ^ 5 % 256, bits / 256 ^ 6 % 256, bits / 256 ^ 7 % 256]

/-- Bytes of a (byte) string. -/
def strBytes (s : String) : Bytes := s.data.map Char.toNat

/-! ## Codec (collectd.py lines 45-92) -/

/-- `pack_numeric(type_code, number)` = `struct.pack("!HHq", type_code, 12, number)`. -/
def pack_numeric (type_code : Nat) (number : Int) : Bytes :=
  be2 type_code ++ be2 12 ++ be8 number

/-- `pack_string(type_code, string)` = `struct.pack("!HH", type_code, 5+len(s)) + s + "\0"`. -/
def pack_string (type_code : Nat) (s : String) : Bytes :=
  be2 type_code ++ be2 (5 + s.length) ++ strBytes s ++ [0]

/-- `pack_value(name, value)`: a TYPE_TYPE_INSTANCE string field for the stat name,
then `struct.pack("!HHH", TYPE_VALUES, 15, 1)`, then `struct.pack("<Bd", VALUE_GAUGE, value)`.
The double `value` is represented by its bit pattern `vbits`. -/
def pack_value (name : String) (vbits : Nat) : Bytes :=
  pack_string TYPE_TYPE_INSTANCE name ++
  (be2 TYPE_VALUES ++ be2 15 ++ be2 1) ++
  (VALUE_GAUGE :: le8 vbits)

/-- `message_start(when, host, plugin_inst, plugin_name)`: the packet header, a fixed
concatenation of host, time, plugin, plugin-instance, type ("gauge") and interval
fields.  Each `pack(id, v)` call resolves to `pack_string` for the codes in
STRING_CODES and to `pack_numeric` for those in LONG_INT_CODES. -/
def message_start (when : Int) (host plugin_inst plugin_name : String) : Bytes :=
  pack_string TYPE_HOST host ++
  pack_numeric TYPE_TIME when ++
  pack_string TYPE_PLUGIN plugin_name ++
  pack_string TYPE_PLUGIN_INSTANCE plugin_inst ++
  pack_string TYPE_TYPE PLUGIN_TYPE ++
  pack_numeric TYPE_INTERVAL SEND_INTERVAL

/-- The greedy packing loop of `messages`: `curr` is the running buffer (already
seeded with the header `start`), `packets` the emitted buffers.  When appending
`part` would push `curr` past MAX_PACKET_SIZE, `curr` is emitted and a fresh
buffer `start ++ part` is begun; otherwise `part` is appended to `curr`. -/
def packParts (start : Bytes) : List Bytes → List Bytes × Bytes → List Bytes × Bytes
  | [], acc => acc
  | part :: rest, (packets, curr) =>
      if curr.length + part.length > MAX_PACKET_SIZE then
        packParts start rest (packets ++ [curr], start ++ part)
      else
        packParts start rest (packets, curr ++ part)

/-- `messages(counts, when, host, plugin_inst, plugin_name)` (collectd.py lines 78-92):
build the header, encode every (name, value) pair, drop any encoded field that can
never fit together with the header, then greedily pack the survivors, emitting the
final buffer.  An empty survivor list yields no packets. -/
def messages (counts : List (String × Nat)) (when : Int)
    (host plugin_inst plugin_name : String) : List Bytes :=
  let start := message_start when host plugin_inst plugin_name
  let parts := counts.map fun p => pack_value p.1 p.2
  let parts := parts.filter fun p => start.length + p.length ≤ MAX_PACKET_SIZE
  if parts.isEmpty then []
  else
    let res := packParts start parts ([], start)
    res.1 ++ [res.2]

/-! ## Basic length facts about the codec -/

theorem strBytes_length (s : String) : (strBytes s).length = s.length := by
  simp [strBytes]

theorem pack_string_length (tc : Nat) (s : String) :
    (pack_string tc s).length = 5 + s.length := by
  simp [pack_string, be2, strBytes_length]; omega

theorem pack_value_length (name : String) (v : Nat) :
    (pack_value name v).length = 20 + name.length := by
  simp [pack_value, pack_string_length, be2, le8]
  omega

theorem pack_numeric_length (tc : Nat) (n : Int) :
    (pack_numeric tc n).length = 12 := by
  simp [pack_numeric, be2, be8]

theorem message_start_length (when : Int) (host plugin_inst plugin_name : String) :
    (message_start when host plugin_inst plugin_name).length =
      49 + host.length + plugin_inst.length + plugin_name.length := by
  have h : PLUGIN_TYPE.length = 5 := rfl
  simp [message_start, pack_string_length, pack_numeric_length, h]
  omega

/-! ## Packetization bounds -/

theorem packParts_bounded (start : Bytes) (parts : List Bytes)
    (packets : List Bytes) (curr : Bytes)
    (hparts : ∀ p ∈ parts, start.length + p.length ≤ MAX_PACKET_SIZE)
    (hpack : ∀ q ∈ packets, q.length ≤ MAX_PACKET_SIZE ∧ ∃ r, q = start ++ r)
    (hcurr : curr.length ≤ MAX_PACKET_SIZE)
    (hcurrp : ∃ r, curr = start ++ r) :
    (∀ q ∈ (packParts start parts (packets, curr)).1,
        q.length ≤ MAX_PACKET_SIZE ∧ ∃ r, q = start ++ r) ∧
    (packParts start parts (packets, curr)).2.length ≤ MAX_PACKET_SIZE ∧
    (∃ r, (packParts start parts (packets, curr)).2 = start ++ r) := by
  induction parts generalizing packets curr with
  | nil => exact ⟨hpack, hcurr, hcurrp⟩
  | cons part rest ih =>
    have hpart : start.length + part.length ≤ MAX_PACKET_SIZE :=
      hparts part (by simp)
    have hrest : ∀ p ∈ rest, start.length + p.length ≤ MAX_PACKET_SIZE :=
      fun p hp => hparts p (by simp [hp])
    simp only [packParts]
    split
    · refine ih (packets ++ [curr]) (start ++ part) hrest ?_ ?_ ⟨part, rfl⟩
      · intro q hq
        rcases List.mem_append.1 hq with h | h
        · exact hpack q h
        · rcases List.mem_singleton.1 h with rfl
          exact ⟨hcurr, hcurrp⟩
      · simpa using hpart
    · rename_i hfit
      refine ih packets (curr ++ part) hrest hpack ?_ ?_
      · simp only [not_lt] at hfit
        simpa using hfit
      · rcases hcurrp with ⟨r, rfl⟩
        exact ⟨r ++ part, by simp⟩

/-- Helper: the filtered part list used by `messages`. -/
def survivingParts (counts : List (String × Nat)) (start : Bytes) : List Bytes :=
  (counts.map fun p => pack_value p.1 p.2).filter
    fun p => start.length + p.length ≤ MAX_PACKET_SIZE

theorem messages_eq (counts : List (String × Nat)) (when : Int)
    (host plugin_inst plugin_name : String) :
    messages counts when host plugin_inst plugin_name =
      (let start := message_start when host plugin_inst plugin_name
       let parts := survivingParts counts start
       if parts.isEmpty then []
       else (packParts start parts ([], start)).1 ++ [(packParts start parts ([], start)).2]) := rfl

/-- C2: every byte-buffer returned by `messages` has length at most
MAX_PACKET_SIZE = 1024, and every buffer is seeded with (starts with) the
header built by `message_start`; the greedy loop `packParts` emits the current
buffer and reseeds with a fresh copy of the header exactly when appending the
next value field would push it past the bound. -/
theorem c2_messages_packets_bounded (counts : List (String × Nat)) (when : Int)
    (host plugin_inst plugin_name : String) (p : Bytes)
    (hp : p ∈ messages counts when host plugin_inst plugin_name) :
    p.length ≤ MAX_PACKET_SIZE ∧
    ∃ rest, p = message_start when host plugin_inst plugin_name ++ rest := by
  rw [messages_eq] at hp
  simp only at hp
  rcases hE : (survivingParts counts (message_start when host plugin_inst plugin_name)).isEmpty with _ | _
  · -- some surviving part exists, so the header itself fits
    rw [hE] at hp
    simp only [Bool.false_eq_true, if_false] at hp
    have hparts : ∀ q ∈ survivingParts counts (message_start when host plugin_inst plugin_name),
        (message_start when host plugin_inst plugin_name).length + q.length ≤ MAX_PACKET_SIZE := by
      intro q hq
      have := List.mem_filter.1 hq
      simpa using this.2
    have hne : survivingParts counts (message_start when host plugin_inst plugin_name) ≠ [] := by
      intro h
      rw [h] at hE
      simp at hE
    have hstart : (message_start when host plugin_inst plugin_name).length ≤ MAX_PACKET_SIZE := by
      rcases List.exists_mem_of_ne_nil _ hne with ⟨q, hq⟩
      have := hparts q hq
      omega
    have main := packParts_bounded (message_start when host plugin_inst plugin_name)
      (survivingParts counts (message_start when host plugin_inst plugin_name))
      [] (message_start when host plugin_inst plugin_name)
      hparts (by simp) hstart ⟨[], by simp⟩
    rcases List.mem_append.1 hp with h | h
    · exact main.1 p h
    · rcases List.mem_singleton.1 h with rfl
      exact ⟨main.2.1, main.2.2⟩
  · rw [hE] at hp
    simp at hp

/-- C3: an encoded value field that cannot fit in a packet even alone with the
header is silently dropped: a one-entry stats map whose field is oversize yields
zero packets, and adding one small fitting entry (in either dict order) yields
exactly one packet holding the header and only the small entry. -/
theorem c3_oversize_field_dropped (bigName smallName : String) (bv sv : Nat)
    (when : Int) (host plugin_inst plugin_name : String)
    (hbig : MAX_PACKET_SIZE <
      (message_start when host plugin_inst plugin_name).length + (pack_value bigName bv).length)
    (hsmall : (message_start when host plugin_inst plugin_name).length +
      (pack_value smallName sv).length ≤ MAX_PACKET_SIZE) :
    messages [(bigName, bv)] when host plugin_inst plugin_name = [] ∧
    messages [(bigName, bv), (smallName, sv)] when host plugin_inst plugin_name =
      [message_start when host plugin_inst plugin_name ++ pack_value smallName sv] ∧
    messages [(smallName, sv), (bigName, bv)] when host plugin_inst plugin_name =
      [message_start when host plugin_inst plugin_name ++ pack_value smallName sv] := by
  have hb : decide ((message_start when host plugin_inst plugin_name).length +
      (pack_value bigName bv).length ≤ MAX_PACKET_SIZE) = false :=
    decide_eq_false (by omega)
  have hs : decide ((message_start when host plugin_inst plugin_name).length +
      (pack_value smallName sv).length ≤ MAX_PACKET_SIZE) = true :=
    decide_eq_true hsmall
  refine ⟨?_, ?_, ?_⟩ <;>
  · rw [messages_eq]
    simp only [survivingParts, List.map_cons, List.map_nil, List.filter_cons, List.filter_nil,
      hb, hs, if_false, if_true, Bool.false_eq_true, List.isEmpty_nil, List.isEmpty_cons,
      packParts, if_true]
    try simp [packParts, if_neg (by omega :
      ¬ (message_start when host plugin_inst plugin_name).length +
        (pack_value smallName sv).length > MAX_PACKET_SIZE)]

/-- C4: a stats map of exactly two entries whose stat names are 512 characters
each (half the maximum packet size) yields exactly two packets, each consisting
of the header followed by exactly one of the two encoded value fields. -/
theorem c4_two_half_size_entries (n1 n2 : String) (v1 v2 : Nat) (when : Int)
    (host plugin_inst plugin_name : String)
    (h1 : n1.length = 512) (h2 : n2.length = 512)
    (hdr : (message_start when host plugin_inst plugin_name).length + 532 ≤ MAX_PACKET_SIZE) :
    messages [(n1, v1), (n2, v2)] when host plugin_inst plugin_name =
      [message_start when host plugin_inst plugin_name ++ pack_value n1 v1,
       message_start when host plugin_inst plugin_name ++ pack_value n2 v2] := by
  have hM : MAX_PACKET_SIZE = 1024 := rfl
  have hl1 : (pack_value n1 v1).length = 532 := by rw [pack_value_length, h1]
  have hl2 : (pack_value n2 v2).length = 532 := by rw [pack_value_length, h2]
  have ht1 : decide ((message_start when host plugin_inst plugin_name).length +
      (pack_value n1 v1).length ≤ MAX_PACKET_SIZE) = true := by
    rw [hl1]; exact decide_eq_true hdr
  have ht2 : decide ((message_start when host plugin_inst plugin_name).length +
      (pack_value n2 v2).length ≤ MAX_PACKET_SIZE) = true := by
    rw [hl2]; exact decide_eq_true hdr
  rw [messages_eq]
  simp only [survivingParts, List.map_cons, List.map_nil, List.filter_cons, List.filter_nil,
    ht1, ht2, if_true, List.isEmpty_cons, Bool.false_eq_true, if_false, packParts]
  rw [if_neg (by omega), if_pos (by simp only [List.length_append]; omega)]
  simp

theorem c2_witness :
    (message_start 0 "h" "" "any" ++ pack_value "x" 0).length ≤ MAX_PACKET_SIZE ∧
    ∃ rest, message_start 0 "h" "" "any" ++ pack_value "x" 0 =
      message_start 0 "h" "" "any" ++ rest :=
  c2_messages_packets_bounded [("x", 0)] 0 "h" "" "any" _
    (by rw [show messages [("x", 0)] 0 "h" "" "any" =
        [message_start 0 "h" "" "any" ++ pack_value "x" 0] from rfl]
        exact List.mem_singleton.2 rfl)

theorem c3_witness :
    messages [(String.mk (List.replicate 1005 'a'), 0)] 0 "h" "" "any" = [] ∧
    messages [(String.mk (List.replicate 1005 'a'), 0), ("s", 0)] 0 "h" "" "any" =
      [message_start 0 "h" "" "any" ++ pack_value "s" 0] ∧
    messages [("s", 0), (String.mk (List.replicate 1005 'a'), 0)] 0 "h" "" "any" =
      [message_start 0 "h" "" "any" ++ pack_value "s" 0] :=
  c3_oversize_field_dropped (String.mk (List.replicate 1005 'a')) "s" 0 0 0 "h" "" "any"
    (by
      rw [pack_value_length, message_start_length]
      have hb : (String.mk (List.replicate 1005 'a')).length = 1005 := by
        show (List.replicate 1005 'a').length = 1005
        rw [List.length_replicate]
      rw [hb]
      norm_num [MAX_PACKET_SIZE, String.length])
    (by
      rw [pack_value_length, message_start_length]
      norm_num [MAX_PACKET_SIZE, String.length])

theorem c4_witness :
    messages [(String.mk (List.replicate 512 'a'), 0), (String.mk (List.replicate 512 'b'), 0)]
        0 "h" "" "any" =
      [message_start 0 "h" "" "any" ++ pack_value (String.mk (List.replicate 512 'a')) 0,
       message_start 0 "h" "" "any" ++ pack_value (String.mk (List.replicate 512 'b')) 0] :=
  c4_two_half_size_entries (String.mk (List.replicate 512 'a'))
    (String.mk (List.replicate 512 'b')) 0 0 0 "h" "" "any"
    (by show (List.replicate 512 'a').length = 512; rw [List.length_replicate])
    (by show (List.replicate 512 'b').length = 512; rw [List.length_replicate])
    (by rw [message_start_length]; norm_num [MAX_PACKET_SIZE, String.length])

/-! ## Counter (collectd.py lines 96-149) -/

/-- A dynamically-typed Python value as passed to `Counter.record`: a string,
a number (int or float, modelled exactly as a rational), or anything else. -/
inductive PyVal where
  | str (s : String)
  | num (q : Rat)
  | other
deriving DecidableEq

def PyVal.isStr : PyVal → Bool
  | .str _ => true
  | _ => false

def PyVal.isNum : PyVal → Bool
  | .num _ => true
  | _ => false

/-- Inner dict of a Counter: statName → accumulated value. -/
abbrev Inner := List (String × Rat)

/-- Outer dict of a Counter: specific → inner dict. -/
abbrev Counts := List (String × Inner)

/-- Update `d[t] += v` on a `defaultdict(float)`: an existing key is updated in
place, a missing key springs into existence at 0.0 and then receives `v`. -/
def insertAdd : Inner → String → Rat → Inner
  | [], t, v => [(t, v)]
  | p :: rest, t, v => if p.1 = t then (p.1, p.2 + v) :: rest else p :: insertAdd rest t v

/-- The statement `self.counts[s][t] += v` on the two-level defaultdict. -/
def countsAdd : Counts → String → String → Rat → Counts
  | [], s, t, v => [(s, insertAdd [] t v)]
  | p :: rest, s, t, v =>
      if p.1 = s then (p.1, insertAdd p.2 t v) :: rest else p :: countsAdd rest s t v

/-- The inner loop of `Counter.record` for one specific name: apply the kwargs
in order, aborting (second component `true`) at the first non-numeric value,
where `assert isinstance(value, (int, float))` fails. -/
def addStats : Counts → String → List (String × PyVal) → Counts × Bool
  | c, _, [] => (c, false)
  | c, s, (t, v) :: rest =>
      match v with
      | .num q => addStats (countsAdd c s t q) s rest
      | _ => (c, true)

/-- The outer loop of `Counter.record`: process each specific in turn; a
non-string specific (failing `assert isinstance(specific, basestring)`), or an
abort from the inner loop, stops the whole call.  The AssertionError is
swallowed by `swallow_errors`, so the partial state reached so far is kept and
nothing is raised to the caller. -/
def recordSpecifics : Counts → List PyVal → List (String × PyVal) → Counts
  | c, [], _ => c
  | c, sp :: rest, kw =>
      match sp with
      | .str s =>
          let r := addStats c s kw
          if r.2 then r.1 else recordSpecifics r.1 rest kw
      | _ => c

/-- `Counter.record(*args, **kwargs)`: the specifics iterated are
`list(args) + [""]`. -/
def record (c : Counts) (args : List PyVal) (kw : List (String × PyVal)) : Counts :=
  recordSpecifics c (args ++ [PyVal.str ""]) kw

/-- The effect of the kwargs loop for one specific when every value is numeric. -/
def applyKW (c : Counts) (s : String) (kw : List (String × Rat)) : Counts :=
  kw.foldl (fun c p => countsAdd c s p.1 p.2) c

/-- A `record` call whose arguments are all well-typed. -/
def recordCall (c : Counts) (args : List String) (kw : List (String × Rat)) : Counts :=
  record c (args.map PyVal.str) (kw.map fun p => (p.1, PyVal.num p.2))

/-- Run a sequence of well-typed `record` calls on a fresh Counter. -/
def runCalls (calls : List (List String × List (String × Rat))) : Counts :=
  calls.foldl (fun c call => recordCall c call.1 call.2) []

/-! ## sanitize and derived names (collectd.py lines 96-97 and 145-146) -/

/-- The character class `[a-zA-Z0-9]` of the `sanitize` regex. -/
def isAln (c : Char) : Bool := c.isAlpha || c.isDigit

/-- `re.sub(r"[^a-zA-Z0-9]+", "_", s)` on the character list: every maximal run
of non-alphanumeric characters becomes a single underscore. -/
def collapseRuns : List Char → List Char
  | [] => []
  | [c] => [if isAln c then c else '_']
  | c :: d :: rest =>
      if isAln c = false ∧ isAln d = false then collapseRuns (d :: rest)
      else (if isAln c then c else '_') :: collapseRuns (d :: rest)

/-- Python `str.strip("_")`: drop leading then trailing underscores
(`List.rdropWhile p l` is `(l.reverse.dropWhile p).reverse`). -/
def stripUnderscores (l : List Char) : List Char :=
  (l.dropWhile fun c => c = '_').rdropWhile fun c => c = '_'

/-- `sanitize(s) = re.sub(r"[^a-zA-Z0-9]+", "_", s).strip("_")`. -/
def sanitize (s : String) : String :=
  String.mk (stripUnderscores (collapseRuns s.data))

/-- Python `str.replace("--", "-")`: left-to-right, non-overlapping. -/
def replaceDashDash : List Char → List Char
  | '-' :: '-' :: rest => '-' :: replaceDashDash rest
  | c :: rest => c :: replaceDashDash rest
  | [] => []

/-- The derived name computed in `Counter.snapshot`:
`"-".join(map(sanitize, [category, specific, stat])).replace("--", "-")`. -/
def derivedName (category specific stat : String) : String :=
  String.mk (replaceDashDash
    ((sanitize category).data ++ '-' :: (sanitize specific).data ++ '-' :: (sanitize stat).data))

/-- Python dict assignment `m[k] = v`: overwrite in place or append a new key. -/
def dictSet (m : List (String × Rat)) (k : String) (v : Rat) : List (String × Rat) :=
  if m.any fun p => p.1 = k then
    m.map fun p => if p.1 = k then (k, v) else p
  else m ++ [(k, v)]

/-- `Counter.snapshot()`: write every existing cell into `totals` under its
derived name and reset the cell to 0.0; returns (totals, the reset table).
There is no filter on the cell value: a cell holding 0.0 is emitted too. -/
def snapshot (category : String) (c : Counts) : List (String × Rat) × Counts :=
  (c.foldl (fun tot p =>
      p.2.foldl (fun tot q => dictSet tot (derivedName category p.1 q.1) q.2) tot) [],
   c.map fun p => (p.1, p.2.map fun q => (q.1, (0 : Rat))))

/-! ## Observation helpers for Counter -/

/-- The (derivedName, value) pairs of all cells, in snapshot iteration order. -/
def flatCells (category : String) (c : Counts) : List (String × Rat) :=
  (c.map fun p => p.2.map fun q => (derivedName category p.1 q.1, q.2)).flatten

/-- Lookup in an association list (a read `totals[name]`). -/
def lookupTot (m : List (String × Rat)) (k : String) : Option Rat :=
  (m.find? fun p => p.1 = k).map Prod.snd

/-- Value the inner dict holds for stat `t`, defaulting to 0 when absent. -/
def innerVal (m : Inner) (t : String) : Rat :=
  match m.find? fun q => q.1 = t with
  | some q => q.2
  | none => 0

/-- Value of cell (s, t), defaulting to 0 when absent. -/
def cellVal (c : Counts) (s t : String) : Rat :=
  match c.find? fun p => p.1 = s with
  | some p => innerVal p.2 t
  | none => 0

/-- Whether the cell (s, t) exists in the table. -/
def cellMem (c : Counts) (s t : String) : Bool :=
  match c.find? fun p => p.1 = s with
  | some p => p.2.any fun q => q.1 = t
  | none => false

/-- Number of times a single `record(*args, **kwargs)` call touches specific `s`
(the iterated list is `args + [""]`, and `args` may repeat a name). -/
def specCount (args : List String) (s : String) : Nat :=
  (args ++ [""]).countP fun x => x = s

/-- Sum of the values a kwargs list records into stat name `t`. -/
def kwSum (kw : List (String × Rat)) (t : String) : Rat :=
  ((kw.filter fun p => p.1 = t).map Prod.snd).sum

/-- The exact sum of all values recorded into cell (s, t) by a call sequence. -/
def recordedSum (calls : List (List String × List (String × Rat))) (s t : String) : Rat :=
  (calls.map fun call => (specCount call.1 s : Rat) * kwSum call.2 t).sum

/-! ## Record semantics lemmas -/

theorem addStats_all_num (kw : List (String × Rat)) :
    ∀ (c : Counts) (s : String),
      addStats c s (kw.map fun p => (p.1, PyVal.num p.2)) = (applyKW c s kw, false) := by
  induction kw with
  | nil => intro c s; rfl
  | cons p rest ih =>
    intro c s
    simp only [List.map_cons, addStats, applyKW, List.foldl_cons]
    exact ih (countsAdd c s p.1 p.2) s

theorem addStats_abort (kwpre : List (String × Rat)) :
    ∀ (c : Counts) (s t : String) (bad : PyVal) (krest : List (String × PyVal)),
      bad.isNum = false →
      addStats c s ((kwpre.map fun p => (p.1, PyVal.num p.2)) ++ (t, bad) :: krest) =
        (applyKW c s kwpre, true) := by
  induction kwpre with
  | nil =>
    intro c s t bad krest hbad
    cases bad with
    | num q => simp [PyVal.isNum] at hbad
    | str s0 => rfl
    | other => rfl
  | cons p rest ih =>
    intro c s t bad krest hbad
    simp only [List.map_cons, List.cons_append, addStats, applyKW, List.foldl_cons]
    exact ih (countsAdd c s p.1 p.2) s t bad krest hbad

/-- C6: a `record` call with an invalid argument never raises to the caller
(`record` is total here because `swallow_errors` catches the AssertionError);
processing stops at the first invalid item, and the additions already applied
for earlier items in the same call remain (no rollback).  Part one: the first
invalid item is a non-string specific, so every specific before it got the full
kwargs applied and nothing after it is touched.  Part two: the first invalid
item is a non-numeric stat value, so the first specific keeps the additions of
the kwargs before it and the call ends there. -/
theorem c6_record_invalid_stops_and_keeps :
    (∀ (c : Counts) (pre : List String) (bad : PyVal) (rest : List PyVal)
        (kw : List (String × Rat)), bad.isStr = false →
      record c (pre.map PyVal.str ++ bad :: rest) (kw.map fun p => (p.1, PyVal.num p.2)) =
        pre.foldl (fun c s => applyKW c s kw) c) ∧
    (∀ (c : Counts) (s : String) (rest : List PyVal) (kwpre : List (String × Rat))
        (t : String) (bad : PyVal) (krest : List (String × PyVal)), bad.isNum = false →
      record c (PyVal.str s :: rest)
          ((kwpre.map fun p => (p.1, PyVal.num p.2)) ++ (t, bad) :: krest) =
        applyKW c s kwpre) := by
  constructor
  · intro c pre bad rest kw hbad
    induction pre generalizing c with
    | nil =>
      simp only [List.map_nil, List.nil_append, record, List.cons_append, recordSpecifics,
        List.foldl_nil]
      cases bad with
      | str s0 => simp [PyVal.isStr] at hbad
      | num q => rfl
      | other => rfl
    | cons s pre' ih =>
      simp only [List.map_cons, List.cons_append, record, recordSpecifics,
        List.foldl_cons] at *
      rw [addStats_all_num]
      exact ih (applyKW c s kw)
  · intro c s rest kwpre t bad krest hbad
    simp only [record, List.cons_append, recordSpecifics]
    rw [addStats_abort kwpre c s t bad krest hbad]
    simp

theorem c6_witness :
    (record [] (["a"].map PyVal.str ++ PyVal.other :: []) ([("x", 1)].map fun p => (p.1, PyVal.num p.2)) =
      ["a"].foldl (fun c s => applyKW c s [("x", 1)]) []) ∧
    record [] (PyVal.str "a" :: []) (([("x", 1)].map fun p => (p.1, PyVal.num p.2)) ++ ("y", PyVal.other) :: [("z", PyVal.num 2)]) =
      applyKW [] "a" [("x", 1)] :=
  ⟨c6_record_invalid_stops_and_keeps.1 [] ["a"] PyVal.other [] [("x", 1)] rfl,
   c6_record_invalid_stops_and_keeps.2 [] "a" [] [("x", 1)] "y" PyVal.other
     [("z", PyVal.num 2)] rfl⟩

/-! ## Accumulation lemmas: cell values under record -/

theorem innerVal_nil (t : String) : innerVal [] t = 0 := rfl

theorem innerVal_cons (p : String × Rat) (rest : Inner) (t : String) :
    innerVal (p :: rest) t = if p.1 = t then p.2 else innerVal rest t := by
  by_cases h : p.1 = t
  · rw [innerVal, List.find?_cons_of_pos _ (by simpa using h), if_pos h]
  · rw [innerVal, List.find?_cons_of_neg _ (by simpa using h), if_neg h]
    rfl

theorem cellVal_nil (s t : String) : cellVal [] s t = 0 := rfl

theorem cellVal_cons (p : String × Inner) (rest : Counts) (s t : String) :
    cellVal (p :: rest) s t = if p.1 = s then innerVal p.2 t else cellVal rest s t := by
  by_cases h : p.1 = s
  · rw [cellVal, List.find?_cons_of_pos _ (by simpa using h), if_pos h]
  · rw [cellVal, List.find?_cons_of_neg _ (by simpa using h), if_neg h]
    rfl

theorem innerVal_insertAdd (m : Inner) (t : String) (v : Rat) (t' : String) :
    innerVal (insertAdd m t v) t' = innerVal m t' + if t = t' then v else 0 := by
  induction m with
  | nil =>
    by_cases h : t = t'
    · simp [insertAdd, innerVal_cons, innerVal_nil, h]
    · simp [insertAdd, innerVal_cons, innerVal_nil, h]
  | cons p rest ih =>
    by_cases hp : p.1 = t
    · rw [insertAdd, if_pos hp]
      by_cases h' : p.1 = t'
      · have ht : t = t' := hp ▸ h'
        simp [innerVal_cons, h', ht]
      · have ht : ¬ t = t' := fun h => h' (hp.symm ▸ h ▸ rfl)
        simp [innerVal_cons, h', ht]
    · rw [insertAdd, if_neg hp]
      by_cases h' : p.1 = t'
      · have ht : ¬ t = t' := fun h => hp (h ▸ h' ▸ rfl)
        simp [innerVal_cons, h', ht]
      · simp [innerVal_cons, h', ih]

theorem cellVal_countsAdd (c : Counts) (s t : String) (v : Rat) (s' t' : String) :
    cellVal (countsAdd c s t v) s' t' =
      cellVal c s' t' + if s = s' ∧ t = t' then v else 0 := by
  induction c with
  | nil =>
    by_cases hs : s = s'
    · subst hs
      rw [countsAdd]
      simp [cellVal_cons, cellVal_nil, innerVal_insertAdd, innerVal_nil]
    · rw [countsAdd]
      simp [cellVal_cons, cellVal_nil, hs]
  | cons p rest ih =>
    by_cases hp : p.1 = s
    · rw [countsAdd, if_pos hp]
      by_cases h' : p.1 = s'
      · have hss : s = s' := hp ▸ h'
        simp only [cellVal_cons, if_pos h', innerVal_insertAdd, hss]
        by_cases ht : t = t'
        · simp [ht]
        · simp [ht]
      · have hss : ¬ (s = s' ∧ t = t') := fun h => h' (hp.trans h.1)
        simp [cellVal_cons, h', hss]
    · rw [countsAdd, if_neg hp]
      by_cases h' : p.1 = s'
      · have hss : ¬ (s = s' ∧ t = t') := fun h => hp (h.1 ▸ h')
        simp [cellVal_cons, h', hss]
      · simp [cellVal_cons, h', ih]

theorem cellVal_applyKW (kw : List (String × Rat)) (c : Counts) (s : String) (s' t' : String) :
    cellVal (applyKW c s kw) s' t' =
      cellVal c s' t' + if s = s' then kwSum kw t' else 0 := by
  induction kw generalizing c with
  | nil => simp [applyKW, kwSum]
  | cons p rest ih =>
    simp only [applyKW, List.foldl_cons] at *
    rw [ih (countsAdd c s p.1 p.2), cellVal_countsAdd]
    have hk : kwSum (p :: rest) t' = (if p.1 = t' then p.2 else 0) + kwSum rest t' := by
      by_cases h : p.1 = t' <;> simp [kwSum, List.filter, h]
    rw [hk]
    by_cases hs : s = s'
    · by_cases ht : p.1 = t'
      · simp [hs, ht, add_assoc]
      · simp [hs, ht]
    · simp [hs]

theorem recordSpecifics_all_valid (specs : List String) (kw : List (String × Rat)) :
    ∀ c : Counts,
      recordSpecifics c (specs.map PyVal.str) (kw.map fun p => (p.1, PyVal.num p.2)) =
        specs.foldl (fun c s => applyKW c s kw) c := by
  induction specs with
  | nil => intro c; rfl
  | cons s rest ih =>
    intro c
    simp only [List.map_cons, recordSpecifics, List.foldl_cons]
    rw [addStats_all_num]
    exact ih (applyKW c s kw)

theorem recordCall_eq_foldl (c : Counts) (args : List String) (kw : List (String × Rat)) :
    recordCall c args kw = (args ++ [""]).foldl (fun c s => applyKW c s kw) c := by
  have h : (args.map PyVal.str) ++ [PyVal.str ""] = (args ++ [""]).map PyVal.str := by
    simp
  rw [recordCall, record, h, recordSpecifics_all_valid]

theorem cellVal_foldl_applyKW (kw : List (String × Rat)) (specs : List String)
    (s' t' : String) : ∀ c : Counts,
    cellVal (specs.foldl (fun c s => applyKW c s kw) c) s' t' =
      cellVal c s' t' + ((specs.countP fun x => x = s') : Rat) * kwSum kw t' := by
  induction specs with
  | nil => intro c; simp
  | cons s rest ih =>
    intro c
    simp only [List.foldl_cons]
    rw [ih (applyKW c s kw), cellVal_applyKW]
    by_cases hs : s = s'
    · rw [List.countP_cons_of_pos _ _ (by simp [hs])]
      push_cast
      simp [hs]
      ring
    · rw [List.countP_cons_of_neg _ _ (by simp [hs])]
      simp [hs]

theorem cellVal_recordCall (c : Counts) (args : List String) (kw : List (String × Rat))
    (s t : String) :
    cellVal (recordCall c args kw) s t =
      cellVal c s t + (specCount args s : Rat) * kwSum kw t := by
  rw [recordCall_eq_foldl, cellVal_foldl_applyKW, specCount]

theorem cellVal_runCalls (calls : List (List String × List (String × Rat))) (s t : String) :
    cellVal (runCalls calls) s t = recordedSum calls s t := by
  suffices h : ∀ c : Counts, cellVal (calls.foldl (fun c call => recordCall c call.1 call.2) c) s t =
      cellVal c s t + recordedSum calls s t by
    have := h []
    simpa [runCalls, cellVal] using this
  induction calls with
  | nil => intro c; simp [recordedSum]
  | cons call rest ih =>
    intro c
    simp only [List.foldl_cons]
    rw [ih (recordCall c call.1 call.2), cellVal_recordCall]
    simp [recordedSum]
    ring

/-! ## Snapshot lemmas -/

theorem cellMem_cons (p : String × Inner) (rest : Counts) (s t : String) :
    cellMem (p :: rest) s t =
      if p.1 = s then (p.2.any fun q => q.1 = t) else cellMem rest s t := by
  by_cases h : p.1 = s
  · rw [cellMem, List.find?_cons_of_pos _ (by simpa using h), if_pos h]
  · rw [cellMem, List.find?_cons_of_neg _ (by simpa using h), if_neg h]
    rfl

theorem innerVal_found (m : Inner) (t : String)
    (h : (m.any fun q => q.1 = t) = true) :
    ∃ q ∈ m, q.1 = t ∧ innerVal m t = q.2 := by
  induction m with
  | nil => simp at h
  | cons q rest ih =>
    by_cases hq : q.1 = t
    · exact ⟨q, by simp, hq, by rw [innerVal_cons, if_pos hq]⟩
    · have h' : (rest.any fun q => q.1 = t) = true := by
        simpa [List.any_cons, hq] using h
      rcases ih h' with ⟨q0, hq0, hq0t, hq0v⟩
      exact ⟨q0, by simp [hq0], hq0t, by rw [innerVal_cons, if_neg hq]; exact hq0v⟩

theorem mem_flatCells_of_cellMem (cat : String) (c : Counts) (s t : String)
    (h : cellMem c s t = true) :
    (derivedName cat s t, cellVal c s t) ∈ flatCells cat c := by
  induction c with
  | nil => simp [cellMem] at h
  | cons p rest ih =>
    rw [cellMem_cons] at h
    by_cases hp : p.1 = s
    · rw [if_pos hp] at h
      rcases innerVal_found p.2 t h with ⟨q0, hq0, hq0t, hq0v⟩
      subst hp
      subst hq0t
      rw [cellVal_cons, if_pos rfl, hq0v]
      rw [flatCells, List.map_cons, List.flatten_cons]
      exact List.mem_append_left _ (List.mem_map.2 ⟨q0, hq0, rfl⟩)
    · rw [if_neg hp] at h
      rw [cellVal_cons, if_neg hp]
      rw [flatCells, List.map_cons, List.flatten_cons]
      exact List.mem_append_right _ (ih h)

theorem snapshot_fst_eq (cat : String) (c : Counts) :
    (snapshot cat c).1 =
      (flatCells cat c).foldl (fun tot q => dictSet tot q.1 q.2) [] := by
  suffices h : ∀ acc : List (String × Rat),
      c.foldl (fun tot p =>
        p.2.foldl (fun tot q => dictSet tot (derivedName cat p.1 q.1) q.2) tot) acc =
      (flatCells cat c).foldl (fun tot q => dictSet tot q.1 q.2) acc from h []
  induction c with
  | nil => intro acc; simp [flatCells]
  | cons p rest ih =>
    intro acc
    rw [flatCells, List.map_cons, List.flatten_cons, List.foldl_append, List.foldl_cons,
      List.foldl_map]
    rw [← flatCells]
    rw [← ih]

theorem dictSet_fresh (acc : List (String × Rat)) (k : String) (v : Rat)
    (h : ∀ p ∈ acc, p.1 ≠ k) : dictSet acc k v = acc ++ [(k, v)] := by
  have hfalse : ¬ (acc.any fun p => p.1 = k) = true := by
    simp only [List.any_eq_true, decide_eq_true_eq]
    rintro ⟨p, hp, hpk⟩
    exact h p hp hpk
  rw [dictSet, if_neg hfalse]

theorem foldl_dictSet_fresh (pairs : List (String × Rat)) :
    ∀ acc : List (String × Rat),
    (∀ q ∈ pairs, ∀ p ∈ acc, p.1 ≠ q.1) →
    ((pairs.map Prod.fst).Nodup) →
    pairs.foldl (fun tot q => dictSet tot q.1 q.2) acc = acc ++ pairs := by
  induction pairs with
  | nil => intro acc _ _; simp
  | cons q rest ih =>
    intro acc hfresh hnd
    rw [List.foldl_cons, dictSet_fresh acc q.1 q.2 (hfresh q (by simp))]
    rw [List.map_cons, List.nodup_cons] at hnd
    have hfresh2 : ∀ r ∈ rest, ∀ p ∈ acc ++ [(q.1, q.2)], p.1 ≠ r.1 := by
      intro r hr p hp
      rcases List.mem_append.1 hp with h | h
      · exact hfresh r (by simp [hr]) p h
      · rcases List.mem_singleton.1 h with rfl
        intro hcon
        exact hnd.1 (show q.1 ∈ rest.map Prod.fst by
          rw [hcon]; exact List.mem_map_of_mem Prod.fst hr)
    rw [ih (acc ++ [(q.1, q.2)]) hfresh2 hnd.2]
    simp

theorem lookupTot_of_mem (m : List (String × Rat)) (k : String) (v : Rat)
    (hnd : (m.map Prod.fst).Nodup) (hm : (k, v) ∈ m) : lookupTot m k = some v := by
  induction m with
  | nil => simp at hm
  | cons p rest ih =>
    rw [List.map_cons, List.nodup_cons] at hnd
    rcases List.mem_cons.1 hm with h | h
    · rw [lookupTot, List.find?_cons_of_pos _ (by simp [← h])]
      simp [← h]
    · have hk : k ∈ rest.map Prod.fst := List.mem_map_of_mem Prod.fst h
      have hpk : ¬ p.1 = k := fun hcon => hnd.1 (hcon ▸ hk)
      rw [lookupTot, List.find?_cons_of_neg _ (by simpa using hpk)]
      exact ih hnd.2 h

theorem flatCells_reset (cat : String) (c : Counts) :
    flatCells cat (snapshot cat c).2 = (flatCells cat c).map fun p => (p.1, (0 : Rat)) := by
  induction c with
  | nil => rfl
  | cons p rest ih =>
    simp only [snapshot, flatCells, List.map_cons, List.flatten_cons, List.map_append,
      List.map_map] at *
    rw [ih]
    rfl

/-- C1: running any sequence of well-typed `record` calls on a fresh Counter and
then taking `snapshot()` returns, for every cell (specific, statName) present,
exactly the sum of all values recorded into that cell (under the premise that
distinct cells derive distinct names, which the dict write `totals[name] = v`
presupposes); a second immediate `snapshot()` returns a mapping with the same
keys in the same order, every value equal to 0.0. -/
theorem c1_snapshot_exact_sums_then_zero (cat : String)
    (calls : List (List String × List (String × Rat)))
    (hnd : ((flatCells cat (runCalls calls)).map Prod.fst).Nodup) :
    (∀ s t, cellMem (runCalls calls) s t = true →
        lookupTot (snapshot cat (runCalls calls)).1 (derivedName cat s t) =
          some (recordedSum calls s t)) ∧
    (snapshot cat (snapshot cat (runCalls calls)).2).1 =
      (snapshot cat (runCalls calls)).1.map fun p => (p.1, (0 : Rat)) := by
  have h1 : (snapshot cat (runCalls calls)).1 = flatCells cat (runCalls calls) := by
    rw [snapshot_fst_eq, foldl_dictSet_fresh _ [] (by simp) hnd]
    simp
  constructor
  · intro s t hmem
    rw [h1]
    have hcell := mem_flatCells_of_cellMem cat (runCalls calls) s t hmem
    rw [cellVal_runCalls] at hcell
    exact lookupTot_of_mem _ _ _ hnd hcell
  · have hkeys : ((flatCells cat (snapshot cat (runCalls calls)).2).map Prod.fst).Nodup := by
      rw [flatCells_reset]
      simpa [List.map_map, Function.comp] using hnd
    rw [snapshot_fst_eq, foldl_dictSet_fresh _ [] (by simp) hkeys]
    rw [flatCells_reset, h1]
    simp

theorem c1_witness :
    lookupTot (snapshot "cat" (runCalls [(["a"], [("x", 3)]), ([], [("x", 5)])])).1
        (derivedName "cat" "a" "x") =
      some (recordedSum [(["a"], [("x", 3)]), ([], [("x", 5)])] "a" "x") ∧
    (snapshot "cat" (snapshot "cat" (runCalls [(["a"], [("x", 3)]), ([], [("x", 5)])])).2).1 =
      (snapshot "cat" (runCalls [(["a"], [("x", 3)]), ([], [("x", 5)])])).1.map
        fun p => (p.1, (0 : Rat)) :=
  ⟨(c1_snapshot_exact_sums_then_zero "cat" [(["a"], [("x", 3)]), ([], [("x", 5)])]
      (by decide)).1 "a" "x" (by decide),
   (c1_snapshot_exact_sums_then_zero "cat" [(["a"], [("x", 3)]), ([], [("x", 5)])]
      (by decide)).2⟩

/-- C5 is false on the code: `snapshot` iterates all existing cells and never
filters on the value, so a cell whose accumulated value is 0.0 still produces
an entry.  Concretely, after `record(x = 0)` the cell ("", "x") holds the
default value 0.0, yet `snapshot()` returns a mapping with one entry
("c-x", 0.0) rather than the empty mapping the claim requires. -/
theorem c5_counterexample :
    cellVal (recordCall [] [] [("x", 0)]) "" "x" = 0 ∧
    (snapshot "c" (recordCall [] [] [("x", 0)])).1 = [("c-x", 0)] ∧
    (snapshot "c" (recordCall [] [] [("x", 0)])).1 ≠ [] := by
  refine ⟨by decide, by decide, by decide⟩

/-- C5 amended: `Counter.snapshot()` emits a derived-name entry for exactly the
(specific, statName) cells present in the counts table, whatever value they
hold; a cell whose accumulated value is 0.0 (default or reset) still
contributes its entry.  Under the premise that distinct cells derive distinct
names, the returned mapping is exactly the cell list with derived names. -/
theorem c5_amended_snapshot_emits_all_cells (cat : String) (c : Counts)
    (hnd : ((flatCells cat c).map Prod.fst).Nodup) :
    (snapshot cat c).1 = flatCells cat c := by
  rw [snapshot_fst_eq, foldl_dictSet_fresh _ [] (by simp) hnd]
  simp

theorem c5_amended_witness :
    (snapshot "c" (recordCall [] [] [("x", 0), ("y", 1)])).1 =
      flatCells "c" (recordCall [] [] [("x", 0), ("y", 1)]) :=
  c5_amended_snapshot_emits_all_cells "c" (recordCall [] [] [("x", 0), ("y", 1)]) (by decide)

/-! ## Connection registry (collectd.py lines 151-189)

`Connection.__new__` keeps a class-wide dict `instances` keyed by the identity
tuple `(hostname, collectd_host, collectd_port, plugin_inst, plugin_name)` and
returns the stored object when the key exists, otherwise allocates a fresh
object and stores it.  `__init__` then runs on the returned object and
initializes it only when `_counters` is not yet in its `__dict__`.  Reference
identity of Python objects is modelled by an allocation number `oid`; mutation
of the stored object is reflected by updating the registry entry. -/

abbrev IdTuple := String × String × Nat × String × String

structure ConnObj where
  oid : Nat
  has_counters : Bool
  counters : List (String × Counts)
  hostname : String
  plugin_inst : String
  plugin_name : String
  collectd_addr : String × Nat
deriving DecidableEq

structure Registry where
  next : Nat
  instances : List (IdTuple × ConnObj)
deriving DecidableEq

def lookupInst (R : Registry) (id : IdTuple) : Option ConnObj :=
  (R.instances.find? fun p => p.1 = id).map Prod.snd

/-- A fresh uninitialized object as allocated by `object.__new__(cls)`:
no attributes are set yet (modelled by `has_counters = false` and dummy field
values). -/
def blankObj (oid : Nat) : ConnObj :=
  { oid := oid, has_counters := false, counters := [], hostname := "",
    plugin_inst := "", plugin_name := "", collectd_addr := ("", 0) }

/-- `Connection.__init__`: runs the initialization block only when
`"_counters" not in self.__dict__`. -/
def conn_init (obj : ConnObj) (id : IdTuple) : ConnObj :=
  if obj.has_counters then obj
  else { obj with
         has_counters := true
         counters := []
         hostname := id.1
         plugin_inst := id.2.2.2.1
         plugin_name := id.2.2.2.2
         collectd_addr := (id.2.1, id.2.2.1) }

/-- In-place mutation of the object stored under `id` (Python mutates the
shared reference; the registry sees the same object). -/
def updateInst (R : Registry) (id : IdTuple) (obj : ConnObj) : Registry :=
  { R with instances := R.instances.map fun p => if p.1 = id then (id, obj) else p }

/-- A full `Connection(...)` construction: `__new__` (lookup-or-create under
the class lock) followed by `__init__` on the returned object. -/
def connection (R : Registry) (id : IdTuple) : ConnObj × Registry :=
  match lookupInst R id with
  | some obj =>
      let obj2 := conn_init obj id
      (obj2, updateInst R id obj2)
  | none =>
      let obj2 := conn_init (blankObj R.next) id
      (obj2, { next := R.next + 1, instances := R.instances ++ [(id, obj2)] })

/-- Registry well-formedness, true of every state reachable from the empty
registry: identity keys are distinct, object identities are distinct and below
the allocation counter, and every stored object has been through `__init__`. -/
def RegWF (R : Registry) : Prop :=
  (R.instances.map Prod.fst).Nodup ∧
  ((R.instances.map fun p => p.2.oid).Nodup) ∧
  ∀ p ∈ R.instances, p.2.oid < R.next ∧ p.2.has_counters = true

instance (R : Registry) : Decidable (RegWF R) := by
  unfold RegWF
  infer_instance

/-! ## Registry lemmas -/

theorem find?_append_of_none {α : Type} (p : α → Bool) (l₁ l₂ : List α)
    (h : l₁.find? p = none) : (l₁ ++ l₂).find? p = l₂.find? p := by
  induction l₁ with
  | nil => rfl
  | cons a tl ih =>
    rcases ha : p a with _ | _
    · rw [List.cons_append, List.find?_cons_of_neg _ (by simp [ha])]
      rw [List.find?_cons_of_neg _ (by simp [ha])] at h
      exact ih h
    · rw [List.find?_cons_of_pos _ ha] at h
      cases h

theorem lookupInst_mem (R : Registry) (t : IdTuple) (obj : ConnObj)
    (h : lookupInst R t = some obj) : (t, obj) ∈ R.instances := by
  rw [lookupInst] at h
  cases hf : R.instances.find? fun p => p.1 = t with
  | none => rw [hf] at h; cases h
  | some pr =>
    rw [hf] at h
    have hm := List.mem_of_find?_eq_some hf
    have hp := List.find?_some hf
    simp only [decide_eq_true_eq] at hp
    have hobj : pr.2 = obj := by simpa using h
    have hpr : pr = (t, obj) := by
      cases pr
      simp_all
    rwa [hpr] at hm

theorem lookupInst_none_iff (R : Registry) (t : IdTuple) :
    lookupInst R t = none ↔ ∀ p ∈ R.instances, p.1 ≠ t := by
  constructor
  · intro h p hp hpt
    cases hf : R.instances.find? fun q => q.1 = t with
    | some pr => rw [lookupInst, hf] at h; cases h
    | none =>
      rw [List.find?_eq_none] at hf
      exact hf p hp (by simpa using hpt)
  · intro h
    cases hf : R.instances.find? fun q => q.1 = t with
    | none => rw [lookupInst, hf]; rfl
    | some pr =>
      have hm := List.mem_of_find?_eq_some hf
      have hp := List.find?_some hf
      simp only [decide_eq_true_eq] at hp
      exact absurd hp (h pr hm)

theorem updateInst_self (R : Registry) (t : IdTuple) (obj : ConnObj)
    (hnd : (R.instances.map Prod.fst).Nodup)
    (h : lookupInst R t = some obj) : updateInst R t obj = R := by
  have hmem : (t, obj) ∈ R.instances := lookupInst_mem R t obj h
  have hfix : ∀ p ∈ R.instances, (if p.1 = t then (t, obj) else p) = p := by
    intro p hp
    by_cases hpt : p.1 = t
    · rw [if_pos hpt]
      exact (List.inj_on_of_nodup_map hnd hp hmem (by simpa using hpt)).symm
    · rw [if_neg hpt]
  rcases R with ⟨next, l⟩
  simp only [updateInst]
  congr 1
  rw [List.map_congr_left hfix]
  exact List.map_id l

theorem connection_hit (R : Registry) (t : IdTuple) (obj : ConnObj)
    (hWF : RegWF R) (h : lookupInst R t = some obj) :
    connection R t = (obj, R) := by
  have hinit : obj.has_counters = true :=
    (hWF.2.2 (t, obj) (lookupInst_mem R t obj h)).2
  have hci : conn_init obj t = obj := by
    rw [conn_init, if_pos hinit]
  simp only [connection, h, hci]
  rw [updateInst_self R t obj hWF.1 h]

theorem connection_miss (R : Registry) (t : IdTuple)
    (h : lookupInst R t = none) :
    connection R t =
      (conn_init (blankObj R.next) t,
       { next := R.next + 1,
         instances := R.instances ++ [(t, conn_init (blankObj R.next) t)] }) := by
  simp only [connection, h]

theorem conn_init_blank_oid (n : Nat) (t : IdTuple) :
    (conn_init (blankObj n) t).oid = n := rfl

theorem conn_init_blank_has (n : Nat) (t : IdTuple) :
    (conn_init (blankObj n) t).has_counters = true := rfl

theorem regWF_connection (R : Registry) (t : IdTuple) (hWF : RegWF R) :
    RegWF (connection R t).2 := by
  cases hlk : lookupInst R t with
  | some obj =>
    rw [connection_hit R t obj hWF hlk]
    exact hWF
  | none =>
    rw [connection_miss R t hlk]
    have hkeys := (lookupInst_none_iff R t).1 hlk
    refine ⟨?_, ?_, ?_⟩
    · rw [List.map_append, List.nodup_append]
      refine ⟨hWF.1, by simp, ?_⟩
      intro k hk
      simp only [List.map_cons, List.map_nil, List.mem_cons, List.not_mem_nil, or_false]
      rcases List.mem_map.1 hk with ⟨p, hp, rfl⟩
      intro hcon
      exact hkeys p hp hcon
    · rw [List.map_append, List.nodup_append]
      refine ⟨hWF.2.1, by simp, ?_⟩
      intro k hk
      simp only [List.map_cons, List.map_nil, List.mem_cons, List.not_mem_nil, or_false]
      rcases List.mem_map.1 hk with ⟨p, hp, rfl⟩
      rw [conn_init_blank_oid]
      exact Nat.ne_of_lt (hWF.2.2 p hp).1
    · intro p hp
      rcases List.mem_append.1 hp with h | h
      · have := hWF.2.2 p h
        exact ⟨Nat.lt_succ_of_lt this.1, this.2⟩
      · rcases List.mem_singleton.1 h with rfl
        refine ⟨?_, conn_init_blank_has R.next t⟩
        show (conn_init (blankObj R.next) t).oid < R.next + 1
        rw [conn_init_blank_oid]
        omega

theorem lookup_oid_injective (R : Registry) (hWF : RegWF R) (t1 t2 : IdTuple)
    (a b : ConnObj) (h1 : lookupInst R t1 = some a) (h2 : lookupInst R t2 = some b)
    (hoid : a.oid = b.oid) : t1 = t2 := by
  have hm1 := lookupInst_mem R t1 a h1
  have hm2 := lookupInst_mem R t2 b h2
  have := List.inj_on_of_nodup_map hWF.2.1 hm1 hm2 (by simpa using hoid)
  exact congrArg Prod.fst this

theorem lookupInst_oid_lt (R : Registry) (hWF : RegWF R) (t : IdTuple) (a : ConnObj)
    (h : lookupInst R t = some a) : a.oid < R.next :=
  (hWF.2.2 (t, a) (lookupInst_mem R t a h)).1

theorem lookupInst_appended (R : Registry) (t : IdTuple) (obj : ConnObj)
    (h : lookupInst R t = none) :
    lookupInst { next := R.next + 1, instances := R.instances ++ [(t, obj)] : Registry } t =
      some obj := by
  rw [lookupInst] at h ⊢
  simp only
  rw [find?_append_of_none _ _ _ (by

    cases hf : R.instances.find? fun p => p.1 = t with
    | none => rfl
    | some pr => rw [hf] at h; cases h)]
  rw [List.find?_cons_of_pos _ (by simp)]
  rfl

theorem lookupInst_appended_ne (R : Registry) (t t2 : IdTuple) (obj : ConnObj)
    (hne : t2 ≠ t) :
    lookupInst { next := R.next + 1, instances := R.instances ++ [(t, obj)] : Registry } t2 =
      lookupInst R t2 := by
  rw [lookupInst, lookupInst]
  simp only
  cases hf : R.instances.find? fun p => p.1 = t2 with
  | some pr =>
    rw [List.find?_append, hf]
    rfl
  | none =>
    rw [find?_append_of_none _ _ _ hf]
    rw [List.find?_cons_of_neg _ (by
      simp only [decide_eq_true_eq]
      exact fun hh => hne hh.symm)]
    rfl

/-- C7: two `Connection` constructions return the same object exactly when
their identity tuples `(hostname, collectd_host, collectd_port, plugin_inst,
plugin_name)` are equal.  Object identity is the allocation number `oid`; the
two constructions are performed in sequence on any well-formed registry. -/
theorem c7_connection_structural_singleton (R : Registry) (hWF : RegWF R)
    (t1 t2 : IdTuple) :
    (connection (connection R t1).2 t2).1.oid = (connection R t1).1.oid ↔ t1 = t2 := by
  cases h1 : lookupInst R t1 with
  | some a =>
    rw [connection_hit R t1 a hWF h1]
    show (connection R t2).1.oid = a.oid ↔ t1 = t2
    cases h2 : lookupInst R t2 with
    | some b =>
      rw [connection_hit R t2 b hWF h2]
      show b.oid = a.oid ↔ t1 = t2
      constructor
      · intro h
        exact (lookup_oid_injective R hWF t2 t1 b a h2 h1 h).symm
      · intro h
        subst h
        rw [h1] at h2
        cases h2
        rfl
    | none =>
      rw [connection_miss R t2 h2]
      show (conn_init (blankObj R.next) t2).oid = a.oid ↔ t1 = t2
      rw [conn_init_blank_oid]
      have hlt : a.oid < R.next := lookupInst_oid_lt R hWF t1 a h1
      refine iff_of_false (by omega) ?_
      intro h
      subst h
      rw [h1] at h2
      cases h2
  | none =>
    rw [connection_miss R t1 h1]
    show (connection
        (Registry.mk (R.next + 1)
          (R.instances ++ [(t1, conn_init (blankObj R.next) t1)])) t2).1.oid =
      (conn_init (blankObj R.next) t1).oid ↔ t1 = t2
    have hWF1 : RegWF (Registry.mk (R.next + 1)
        (R.instances ++ [(t1, conn_init (blankObj R.next) t1)])) := by
      have h := regWF_connection R t1 hWF
      rwa [connection_miss R t1 h1] at h
    by_cases ht : t2 = t1
    · subst ht
      have hl := lookupInst_appended R t2 (conn_init (blankObj R.next) t2) h1
      rw [connection_hit _ t2 _ hWF1 hl]
      simp
    · have hl := lookupInst_appended_ne R t1 t2 (conn_init (blankObj R.next) t1) ht
      cases h2 : lookupInst R t2 with
      | some b =>
        rw [connection_hit _ t2 b hWF1 (by rw [hl, h2])]
        show b.oid = (conn_init (blankObj R.next) t1).oid ↔ t1 = t2
        rw [conn_init_blank_oid]
        have hlt : b.oid < R.next := lookupInst_oid_lt R hWF t2 b h2
        exact iff_of_false (by omega) fun h => ht h.symm
      | none =>
        rw [connection_miss _ t2 (by rw [hl, h2])]
        show (conn_init (blankObj (R.next + 1)) t2).oid =
          (conn_init (blankObj R.next) t1).oid ↔ t1 = t2
        rw [conn_init_blank_oid, conn_init_blank_oid]
        exact iff_of_false (by omega) fun h => ht h.symm

theorem c7_witness :
    ((connection (connection (Registry.mk 0 []) ("h", "localhost", 25826, "", "any")).2
        ("h", "localhost", 25826, "", "any")).1.oid =
      (connection (Registry.mk 0 []) ("h", "localhost", 25826, "", "any")).1.oid ↔
      ("h", "localhost", 25826, "", "any") =
        (("h", "localhost", 25826, "", "any") : IdTuple)) :=
  c7_connection_structural_singleton (Registry.mk 0 []) (by decide)
    ("h", "localhost", 25826, "", "any") ("h", "localhost", 25826, "", "any")

/-- C9: constructing a `Connection` again with the identity tuple of an
existing instance returns that instance with all of its state intact:
`__init__` sees `_counters` already present and skips initialization, so the
accumulated counters, hostname, plugin identity and destination address are
preserved, and the registry is unchanged. -/
theorem c9_reconstruction_preserves_state (R : Registry) (t : IdTuple)
    (obj : ConnObj) (hWF : RegWF R) (h : lookupInst R t = some obj) :
    (connection R t).1 = obj ∧ (connection R t).2 = R ∧
    (connection R t).1.counters = obj.counters ∧
    (connection R t).1.hostname = obj.hostname ∧
    (connection R t).1.plugin_inst = obj.plugin_inst ∧
    (connection R t).1.plugin_name = obj.plugin_name ∧
    (connection R t).1.collectd_addr = obj.collectd_addr := by
  rw [connection_hit R t obj hWF h]
  exact ⟨rfl, rfl, rfl, rfl, rfl, rfl, rfl⟩

theorem c9_witness :
    (connection (connection (Registry.mk 0 []) ("h", "localhost", 25826, "", "any")).2
        ("h", "localhost", 25826, "", "any")).1 =
      conn_init (blankObj 0) ("h", "localhost", 25826, "", "any") ∧
    (connection (connection (Registry.mk 0 []) ("h", "localhost", 25826, "", "any")).2
        ("h", "localhost", 25826, "", "any")).2 =
      (connection (Registry.mk 0 []) ("h", "localhost", 25826, "", "any")).2 ∧
    (connection (connection (Registry.mk 0 []) ("h", "localhost", 25826, "", "any")).2
        ("h", "localhost", 25826, "", "any")).1.counters =
      (conn_init (blankObj 0) ("h", "localhost", 25826, "", "any")).counters ∧
    (connection (connection (Registry.mk 0 []) ("h", "localhost", 25826, "", "any")).2
        ("h", "localhost", 25826, "", "any")).1.hostname =
      (conn_init (blankObj 0) ("h", "localhost", 25826, "", "any")).hostname ∧
    (connection (connection (Registry.mk 0 []) ("h", "localhost", 25826, "", "any")).2
        ("h", "localhost", 25826, "", "any")).1.plugin_inst =
      (conn_init (blankObj 0) ("h", "localhost", 25826, "", "any")).plugin_inst ∧
    (connection (connection (Registry.mk 0 []) ("h", "localhost", 25826, "", "any")).2
        ("h", "localhost", 25826, "", "any")).1.plugin_name =
      (conn_init (blankObj 0) ("h", "localhost", 25826, "", "any")).plugin_name ∧
    (connection (connection (Registry.mk 0 []) ("h", "localhost", 25826, "", "any")).2
        ("h", "localhost", 25826, "", "any")).1.collectd_addr =
      (conn_init (blankObj 0) ("h", "localhost", 25826, "", "any")).collectd_addr := by
  have hwit := c9_reconstruction_preserves_state
    (connection (Registry.mk 0 []) ("h", "localhost", 25826, "", "any")).2
    ("h", "localhost", 25826, "", "any")
    (conn_init (blankObj 0) ("h", "localhost", 25826, "", "any"))
    (by decide) (by decide)
  exact hwit

/-! ## Pipeline startup (collectd.py lines 214-235) -/

structure PipelineState where
  sem : Nat
  collector_threads : Nat
  sender_threads : Nat
deriving DecidableEq

/-- The process state before `start_threads` is first called: the module-level
`single_start = Semaphore()` has count 1 and no background task exists. -/
def initPipeline : PipelineState := { sem := 1, collector_threads := 0, sender_threads := 0 }

/-- `start_threads()`: `assert single_start.acquire(blocking = False)` succeeds
exactly when the semaphore count is positive, decrementing it; on success
`daemonize(take_snapshots, ...)` and `daemonize(send_stats)` each spawn one
background task.  On failure the AssertionError propagates before any task is
spawned (`start_threads` is not wrapped in `swallow_errors`). -/
def start_threads (st : PipelineState) : Except Unit PipelineState :=
  if 0 < st.sem then
    Except.ok { sem := st.sem - 1, collector_threads := st.collector_threads + 1,
                sender_threads := st.sender_threads + 1 }
  else Except.error ()

/-- C8: `start_threads` succeeds at most once per process.  The first call on
the initial state spawns exactly one collector and one sender task and uses up
the semaphore; any call on the state the first call produced fails its
single-start guard (raising, not spawning), so no duplicate tasks are ever
created. -/
theorem c8_start_threads_single_start :
    start_threads initPipeline =
      Except.ok { sem := 0, collector_threads := 1, sender_threads := 1 } ∧
    ∀ st : PipelineState, start_threads initPipeline = Except.ok st →
      start_threads st = Except.error () := by
  refine ⟨rfl, ?_⟩
  intro st h
  have hst : st = { sem := 0, collector_threads := 1, sender_threads := 1 } := by
    have : Except.ok (ε := Unit)
        { sem := 0, collector_threads := 1, sender_threads := 1 : PipelineState } =
        Except.ok st := by
      rw [← h]
      rfl
    cases this
    rfl
  subst hst
  rfl

theorem c8_witness :
    start_threads { sem := 0, collector_threads := 1, sender_threads := 1 } =
      Except.error () :=
  c8_start_threads_single_start.2
    { sem := 0, collector_threads := 1, sender_threads := 1 }
    c8_start_threads_single_start.1

/-! ## Sanitize idempotence -/

/-- Adjacency invariant of `collapseRuns` output: no two neighbouring
non-alphanumeric characters. -/
def AdjOK (a b : Char) : Prop := isAln a = true ∨ isAln b = true

theorem adjOK_symm (a b : Char) (h : AdjOK a b) : AdjOK b a := h.symm

theorem collapseRuns_cons_aln (d : Char) (rest : List Char) (h : isAln d = true) :
    collapseRuns (d :: rest) = d :: collapseRuns rest := by
  cases rest with
  | nil => simp [collapseRuns, h]
  | cons r rs => simp [collapseRuns, h]

theorem collapseRuns_mem (l : List Char) :
    ∀ x ∈ collapseRuns l, isAln x = true ∨ x = '_' := by
  induction l with
  | nil => simp [collapseRuns]
  | cons c tl ih =>
    cases tl with
    | nil =>
      intro x hx
      rw [collapseRuns] at hx
      rcases List.mem_singleton.1 hx with rfl
      by_cases h : isAln c = true
      · left; simp [h]
      · right; simp [h]
    | cons d rs =>
      intro x hx
      rw [collapseRuns] at hx
      by_cases hcd : isAln c = false ∧ isAln d = false
      · rw [if_pos hcd] at hx
        exact ih x hx
      · rw [if_neg hcd] at hx
        rcases List.mem_cons.1 hx with rfl | hx2
        · by_cases h : isAln c = true
          · left; simp [h]
          · right; simp [h]
        · exact ih x hx2

theorem collapseRuns_chain (l : List Char) : List.Chain' AdjOK (collapseRuns l) := by
  induction l with
  | nil => simp [collapseRuns]
  | cons c tl ih =>
    cases tl with
    | nil => simp [collapseRuns]
    | cons d rs =>
      rw [collapseRuns]
      by_cases hcd : isAln c = false ∧ isAln d = false
      · rw [if_pos hcd]
        exact ih
      · rw [if_neg hcd]
        rw [List.chain'_cons']
        refine ⟨?_, ih⟩
        intro b hb
        by_cases hc : isAln c = true
        · left
          simp [hc]
        · have hd : isAln d = true := by
            rcases Bool.eq_false_or_eq_true (isAln d) with h | h
            · exact h
            · exact absurd ⟨Bool.eq_false_iff.2 hc, h⟩ hcd
          rw [collapseRuns_cons_aln d rs hd] at hb
          simp only [List.head?_cons, Option.mem_def, Option.some_inj] at hb
          right
          rw [← hb]
          exact hd

theorem collapseRuns_fixed (l : List Char)
    (hmem : ∀ x ∈ l, isAln x = true ∨ x = '_')
    (hch : List.Chain' AdjOK l) : collapseRuns l = l := by
  induction l with
  | nil => rfl
  | cons c tl ih =>
    cases tl with
    | nil =>
      rw [collapseRuns]
      rcases hmem c (by simp) with h | h
      · simp [h]
      · subst h
        decide
    | cons d rs =>
      have hAdj : AdjOK c d := (List.chain'_cons.1 hch).1
      have hch' := (List.chain'_cons.1 hch).2
      have hmem' : ∀ x ∈ d :: rs, isAln x = true ∨ x = '_' :=
        fun x hx => hmem x (by simp [hx])
      rw [collapseRuns]
      have hcond : ¬ (isAln c = false ∧ isAln d = false) := by
        rcases hAdj with h | h
        · intro hcon; rw [hcon.1] at h; cases h
        · intro hcon; rw [hcon.2] at h; cases h
      rw [if_neg hcond, ih hmem' hch']
      congr 1
      rcases hmem c (by simp) with h | h
      · rw [if_pos h]
      · subst h
        decide

theorem stripUnderscores_subset (l : List Char) :
    ∀ x ∈ stripUnderscores l, x ∈ l := by
  intro x hx
  rw [stripUnderscores, List.rdropWhile, List.mem_reverse] at hx
  have hx2 := (List.dropWhile_suffix _).sublist.subset hx
  rw [List.mem_reverse] at hx2
  exact (List.dropWhile_suffix _).sublist.subset hx2

theorem stripUnderscores_chain (l : List Char) (h : List.Chain' AdjOK l) :
    List.Chain' AdjOK (stripUnderscores l) := by
  have h1 : List.Chain' AdjOK (l.dropWhile fun c => c = '_') :=
    h.suffix (List.dropWhile_suffix _)
  rw [stripUnderscores, List.rdropWhile, List.chain'_reverse]
  apply List.Chain'.suffix ?_ (List.dropWhile_suffix _)
  have h2 : List.Chain' AdjOK (l.dropWhile fun c => c = '_').reverse.reverse := by
    rwa [List.reverse_reverse]
  exact List.chain'_reverse.1 h2

theorem dropWhile_after_rdropWhile {α : Type} (p : α → Bool) (l : List α) :
    ((l.dropWhile p).rdropWhile p).dropWhile p = (l.dropWhile p).rdropWhile p := by
  rw [List.dropWhile_eq_self_iff]
  intro hl
  obtain ⟨u, hu⟩ := List.dropWhile_suffix (l := (l.dropWhile p).reverse) p
  have hw : l.dropWhile p = (l.dropWhile p).rdropWhile p ++ u.reverse :=
    calc l.dropWhile p = ((l.dropWhile p).reverse).reverse :=
          (List.reverse_reverse _).symm
      _ = (u ++ (l.dropWhile p).reverse.dropWhile p).reverse := by rw [hu]
      _ = ((l.dropWhile p).reverse.dropWhile p).reverse ++ u.reverse := by
          rw [List.reverse_append]
      _ = (l.dropWhile p).rdropWhile p ++ u.reverse := rfl
  obtain ⟨m0, mt, hm⟩ :=
    List.exists_cons_of_ne_nil (List.length_pos_iff_ne_nil.1 hl)
  have hY : l.dropWhile p = m0 :: (mt ++ u.reverse) := by
    rw [hw, hm, List.cons_append]
  have hlen : 0 < (l.dropWhile p).length := by
    rw [hY]
    simp
  have hnp := List.dropWhile_get_zero_not p l hlen
  have hget : (l.dropWhile p).get ⟨0, hlen⟩ = m0 := by
    rw [List.get_of_eq hY ⟨0, hlen⟩]
    exact List.get_cons_zero
  rw [hget] at hnp
  have hget2 : ((l.dropWhile p).rdropWhile p).get ⟨0, hl⟩ = m0 := by
    rw [List.get_of_eq hm ⟨0, hl⟩]
    exact List.get_cons_zero
  rw [hget2]
  exact hnp

theorem stripUnderscores_idem (l : List Char) :
    stripUnderscores (stripUnderscores l) = stripUnderscores l := by
  rw [stripUnderscores, stripUnderscores, dropWhile_after_rdropWhile,
    List.rdropWhile_idempotent]

/-- C10: `sanitize` is idempotent: its output consists only of alphanumeric
characters and isolated underscores with no leading or trailing underscore, so
collapsing runs and stripping again changes nothing. -/
theorem c10_sanitize_idempotent (s : String) : sanitize (sanitize s) = sanitize s := by
  simp only [sanitize]
  congr 1
  show stripUnderscores (collapseRuns (stripUnderscores (collapseRuns s.data))) =
    stripUnderscores (collapseRuns s.data)
  have hfix : collapseRuns (stripUnderscores (collapseRuns s.data)) =
      stripUnderscores (collapseRuns s.data) := by
    apply collapseRuns_fixed
    · intro x hx
      exact collapseRuns_mem s.data x (stripUnderscores_subset _ x hx)
    · exact stripUnderscores_chain _ (collapseRuns_chain s.data)
  rw [hfix]
  exact stripUnderscores_idem _

end Collectd
